import Mathlib

/-!
Verification of the content synchronization engine of the repository:
the frontmatter codec, the one-shot reconciliation pass (sync-docs),
the per-mutation mirror hooks of the Docs and Meta collections, and the
api-specs ingestion pipeline.  JavaScript strings are modelled as Lean
strings and every string operation used by the source is implemented
explicitly over the underlying character list, so that all definitions
are executable and kernel-reducible.
-/

namespace DocSync

/-! ## Character-list string primitives (models of the JS string methods) -/

/-- Whitespace recognised by the model of the JS trim method (ASCII
space, tab, newline, carriage return; the full JS set also contains
rarer Unicode spaces that no input of this development uses). -/
def isWsCh (c : Char) : Bool :=
  c == ' ' || c == '\t' || c == '\n' || c == '\r'

/-- Model of the JS String.prototype.trim method. -/
def trimL (l : List Char) : List Char :=
  ((l.dropWhile isWsCh).reverse.dropWhile isWsCh).reverse

/-- Model of the JS String.prototype.split method with a one-character
separator, returning the first piece and the remaining pieces (JS split
always returns at least one piece). -/
def splitOnChNe (sep : Char) : List Char → List Char × List (List Char)
  | [] => ([], [])
  | c :: cs =>
    let r := splitOnChNe sep cs
    if c == sep then ([], r.1 :: r.2) else (c :: r.1, r.2)

/-- All pieces of the split, as the JS method returns them. -/
def splitOnCh (sep : Char) (l : List Char) : List (List Char) :=
  (splitOnChNe sep l).1 :: (splitOnChNe sep l).2

/-- Model of the JS Array.prototype.join method with a one-character
separator. -/
def joinSep (sep : Char) : List (List Char) → List Char
  | [] => []
  | [p] => p
  | p :: ps => p ++ sep :: joinSep sep ps

/-- Split at the first occurrence of a separator character: none when
the separator does not occur.  This is the form the specification text
uses to describe the key/value split of a frontmatter line. -/
def splitAtFirst (sep : Char) : List Char → Option (List Char × List Char)
  | [] => none
  | c :: cs =>
    if c == sep then some ([], cs)
    else (splitAtFirst sep cs).map fun r => (c :: r.1, r.2)

/-- Model of the JS String.prototype.replace method with a plain string
pattern: only the first occurrence of the pattern is replaced. -/
def replaceFirstL (pat repl : List Char) : List Char → List Char
  | [] => []
  | c :: cs =>
    if pat.isPrefixOf (c :: cs) then repl ++ (c :: cs).drop pat.length
    else c :: replaceFirstL pat repl cs

/-- Split at the first occurrence of a multi-character pattern,
returning the part before it and the part after it.  Models the lazy
group of the frontmatter regular expression. -/
def splitFirstSub (pat : List Char) : List Char → Option (List Char × List Char)
  | [] => if pat.isPrefixOf ([] : List Char) then some ([], []) else none
  | c :: cs =>
    if pat.isPrefixOf (c :: cs) then some ([], (c :: cs).drop pat.length)
    else match splitFirstSub pat cs with
      | some r => some (c :: r.1, r.2)
      | none => none

/-! ## Frontmatter codec

Both src/cms/src/scripts/sync-docs.ts and src/cms/src/collections/Docs.ts
define textually identical copies of parseFrontmatter; the definitions
below embed that one function. -/

/-- A coerced frontmatter value.  The num constructor carries the
numeral text accepted by the JS Number coercion; the source stores the
corresponding JS number, and no theorem of this development compares
two distinct numeral spellings of one number. -/
inductive FmValue where
  | bool (b : Bool)
  | num (s : String)
  | str (s : String)
deriving DecidableEq

/-- Digits-then-optional-fraction-then-optional-exponent body of a JS
decimal numeral, after the optional sign. -/
def jsNumericBody (l : List Char) : Bool :=
  let d1 := l.takeWhile (fun c => c.isDigit)
  let r1 := l.dropWhile (fun c => c.isDigit)
  match r1 with
  | [] => d1 != []
  | '.' :: r2 =>
    let d2 := r2.takeWhile (fun c => c.isDigit)
    let r3 := r2.dropWhile (fun c => c.isDigit)
    (d1 != [] || d2 != []) && jsExpPart r3
  | _ => d1 != [] && jsExpPart r1
where
  /-- Optional exponent part of a JS decimal numeral. -/
  jsExpPart : List Char → Bool
  | [] => true
  | c :: rest =>
    (c == 'e' || c == 'E') &&
      (match rest with
       | [] => false
       | d :: ds =>
         if d == '+' || d == '-' then ds != [] && ds.all (fun x => x.isDigit)
         else (d :: ds).all (fun x => x.isDigit))

/-- Numeral body with no sign: Infinity or a decimal numeral. -/
def jsUnsignedNumeric (l : List Char) : Bool :=
  l == "Infinity".data || jsNumericBody l

/-- Model of the test !isNaN(Number(val)) of the source, on the decimal
fragment of the ECMAScript Number coercion (the empty string coerces to
zero, hence counts as numeric; hexadecimal, octal and binary literal
forms are outside the fragment exercised by this repository). -/
def jsIsNumeric (s : String) : Bool :=
  match s.data with
  | [] => true
  | c :: rest =>
    if c == '+' || c == '-' then jsUnsignedNumeric rest
    else jsUnsignedNumeric (c :: rest)

/-- The double-quote character. -/
def quoteD : Char := Char.ofNat 34

/-- The single-quote character. -/
def quoteS : Char := Char.ofNat 39

/-- Is the character one of the two quote characters of the source
regular expression. -/
def isQuoteCh (c : Char) : Bool := c == quoteD || c == quoteS

/-- Model of val.replace with the global pattern matching one leading
or one trailing quote character: the leading strip and the trailing
strip are independent and the two quotes need not match. -/
def stripQuotesJs (s : String) : String :=
  let l1 :=
    match s.data with
    | c :: cs => if isQuoteCh c then cs else c :: cs
    | [] => []
  let l2 :=
    match l1.getLast? with
    | some c => if isQuoteCh c then l1.dropLast else l1
    | none => l1
  ⟨l2⟩

/-- Quote stripping as the claim states it: one layer of surrounding
matching quotes is removed, and nothing else. -/
def stripQuotesMatchingSpec (s : String) : String :=
  match s.data with
  | [] => s
  | c :: cs =>
    if isQuoteCh c && (cs.getLast? == some c) then ⟨cs.dropLast⟩ else s

/-- The coercion chain of the source, applied to the trimmed value
text: the literals true and false become booleans, then any
Number-parseable text becomes a number, otherwise the text is kept as a
string with quote characters stripped by the replace call. -/
def coerceVal (val : String) : FmValue :=
  if val == "true" then .bool true
  else if val == "false" then .bool false
  else if jsIsNumeric val then .num val
  else .str (stripQuotesJs val)

/-- The coercion chain exactly as the claim words it, with matching
surrounding quotes stripped in the fallback case. -/
def coerceValMatching (val : String) : FmValue :=
  if val == "true" then .bool true
  else if val == "false" then .bool false
  else if jsIsNumeric val then .num val
  else .str (stripQuotesMatchingSpec val)

/-- One line of the frontmatter block, as the source processes it:
split on the colon character, keep the first piece as the key and
rejoin the rest as the value; a line without a colon or with an empty
key piece is skipped (returns none). -/
def parseLine (line : String) : Option (String × FmValue) :=
  let pieces := splitOnChNe ':' line.data
  if pieces.1 != [] && pieces.2 != [] then
    some (⟨trimL pieces.1⟩, coerceVal ⟨trimL (joinSep ':' pieces.2)⟩)
  else none

/-- One line as the amended claim describes it: split at the first
colon, trim the key, trim the value, coerce. -/
def parseLineSpec (line : String) : Option (String × FmValue) :=
  match splitAtFirst ':' line.data with
  | none => none
  | some r =>
    if r.1 != [] then
      some (⟨trimL r.1⟩, coerceVal ⟨trimL r.2⟩)
    else none

/-- Insert or overwrite a key in the field mapping, keeping first
insertion order, as JS object assignment does. -/
def upsert (m : List (String × FmValue)) (k : String) (v : FmValue) :
    List (String × FmValue) :=
  if m.any (fun e => e.1 == k) then
    m.map (fun e => if e.1 == k then (k, v) else e)
  else m ++ [(k, v)]

/-- The frontmatter block match: the text must begin with the opening
delimiter line, and the lazy group ends at the first later occurrence
of a delimiter line; returns the block and the body. -/
def fmMatch (l : List Char) : Option (List Char × List Char) :=
  if ("---\n".data).isPrefixOf l then splitFirstSub ("\n---\n".data) (l.drop 4)
  else none

/-- Model of parseFrontmatter of the source: when the delimiter match
fails the whole input is the body and the mapping is empty; otherwise
each line of the block is parsed and folded into the mapping. -/
def parseFrontmatter (content : String) :
    List (String × FmValue) × String :=
  match fmMatch content.data with
  | none => ([], content)
  | some r =>
    let data := (splitOnCh '\n' r.1).foldl
      (fun acc lineL =>
        match parseLine ⟨lineL⟩ with
        | some kv => upsert acc kv.1 kv.2
        | none => acc) []
    (data, ⟨r.2⟩)

/-! ## Record store and the reconciliation pass (sync-docs.ts)

The record store is the external payload collection: records are kept
as a list of slug/content pairs, the slug is the unique key (the source
declares the slug field unique), and update and delete address records
through that key (the source addresses them through the database id,
which under the uniqueness invariant identifies the same record).
Failures of the store round trips are supplied by an explicit
environment, as the store is an external collaborator whose operations
may throw; a create additionally fails when the slug already exists,
which is the uniqueness constraint of the collection. -/

/-- A content record of the docs collection. -/
structure Doc where
  slug : String
  content : String
deriving DecidableEq

/-- Which store operations throw, per slug.  The trivial environment
noFail models a fully healthy store. -/
structure SyncEnv where
  createFails : String → Bool
  updateFails : String → Bool
  deleteFails : String → Bool

/-- The healthy store environment: no operation throws. -/
def noFail : SyncEnv := ⟨fun _ => false, fun _ => false, fun _ => false⟩

/-- The log lines the pass prints, one list per kind. -/
structure SyncLog where
  created : List String
  updated : List String
  deleted : List String
  skipped : List String
  failedUpdates : List String
deriving DecidableEq

/-- The empty log. -/
def emptyLog : SyncLog := ⟨[], [], [], [], []⟩

/-- Result of a pass: the final store, the log, and whether the pass
aborted with an uncaught exception (in which case the entry point exits
with a non-zero code). -/
structure SyncOut where
  store : List Doc
  log : SyncLog
  err : Bool
deriving DecidableEq

/-- The content extension. -/
def mdxExt : String := ".mdx"

/-- file.endsWith of the source filter. -/
def isMdxName (n : String) : Bool := (mdxExt.data).isSuffixOf n.data

/-- The slug the pass derives from a file name:
file.replace of the first occurrence of the extension text by the
empty string (not a suffix strip). -/
def slugOfFile (n : String) : String := ⟨replaceFirstL mdxExt.data [] n.data⟩

/-- payload.update on the docs collection: the record with the given
slug gets the new content. -/
def applyUpdate (st : List Doc) (slug content : String) : List Doc :=
  st.map fun d => if d.slug == slug then { d with content := content } else d

/-- payload.delete on the docs collection: the record with the given
slug is removed. -/
def applyDelete (st : List Doc) (slug : String) : List Doc :=
  st.filter fun d => d.slug != slug

/-- Does the live store already hold a record with this slug (the
uniqueness constraint consulted by a create). -/
def hasSlug (st : List Doc) (slug : String) : Bool :=
  st.any fun d => d.slug == slug

/-- The limit of the payload.find call the pass issues: at most 1000
records are fetched. -/
def fetchLimit : Nat := 1000

/-- The record set the pass actually fetches. -/
def fetchedDocs (store : List Doc) : List Doc := store.take fetchLimit

/-- The create-or-update body of the per-file loop of syncDocs: the
decision uses the fetched snapshot, the mutation applies to the live
store; a failing update is caught and logged, a failing create is
caught and logged as skipped. -/
def processFile (env : SyncEnv) (snap : List Doc)
    (acc : List Doc × SyncLog) (f : String × String) :
    List Doc × SyncLog :=
  let slug := slugOfFile f.1
  if (snap.map (fun d => d.slug)).contains slug then
    match snap.find? (fun d => d.slug == slug) with
    | some ex =>
      if ex.content != f.2 then
        if env.updateFails slug then
          (acc.1, { acc.2 with failedUpdates := acc.2.failedUpdates ++ [slug] })
        else
          (applyUpdate acc.1 slug f.2,
           { acc.2 with updated := acc.2.updated ++ [slug] })
      else acc
    | none => acc
  else
    if env.createFails slug || hasSlug acc.1 slug then
      (acc.1, { acc.2 with skipped := acc.2.skipped ++ [slug] })
    else
      (acc.1 ++ [⟨slug, f.2⟩],
       { acc.2 with created := acc.2.created ++ [slug] })

/-- The per-file loop of syncDocs. -/
def runFiles (env : SyncEnv) (snap : List Doc) :
    List Doc × SyncLog → List (String × String) → List Doc × SyncLog
  | acc, [] => acc
  | acc, f :: fs => runFiles env snap (processFile env snap acc f) fs

/-- The delete loop of syncDocs: every fetched record whose slug plus
extension is not among the enumerated file names is deleted.  The
source wraps no try/catch around this payload.delete, so a throwing
delete aborts the whole pass. -/
def runDeletes (env : SyncEnv) (names : List String) :
    List Doc → List Doc × SyncLog → SyncOut
  | [], acc => ⟨acc.1, acc.2, false⟩
  | r :: rest, acc =>
    if names.contains (r.slug ++ mdxExt) then runDeletes env names rest acc
    else if env.deleteFails r.slug then ⟨acc.1, acc.2, true⟩
    else runDeletes env names rest
      (applyDelete acc.1 r.slug,
       { acc.2 with deleted := acc.2.deleted ++ [r.slug] })

/-- One reconciliation pass of syncDocs over a store and the list of
direct children of the docs directory (name and raw content pairs):
filter the mdx files, fetch the record snapshot, run the per-file
create/update loop, then the delete loop.  The docs directory is
assumed to exist (otherwise the script returns before doing anything),
and the content-root choice by existsSync is resolved outside the
model, as the disk listing is passed in directly. -/
def syncDocsE (env : SyncEnv) (store0 : List Doc)
    (disk : List (String × String)) : SyncOut :=
  let files := disk.filter fun p => isMdxName p.1
  let names := files.map fun p => p.1
  let snap := fetchedDocs store0
  runDeletes env names snap (runFiles env snap (store0, emptyLog) files)

/-- The pass against a healthy store. -/
def syncDocs (store0 : List Doc) (disk : List (String × String)) : SyncOut :=
  syncDocsE noFail store0 disk

/-- The process exit code of the batch entry point: 0 when the pass
runs to completion, 1 when an uncaught exception reaches the top-level
catch. -/
def exitCode (env : SyncEnv) (store0 : List Doc)
    (disk : List (String × String)) : Nat :=
  if (syncDocsE env store0 disk).err then 1 else 0

/-! ## Filesystem model and the mirror hooks (Docs.ts, Meta.ts)

Paths are absolute segment lists.  The filesystem tracks the set of
regular files (with contents) and the set of directories.  The
content-root choice of the source (an existsSync test between two
candidate working-directory-relative roots) is resolved outside the
model: every hook takes the chosen content root as a parameter. -/

/-- A snapshot of the relevant part of the filesystem. -/
structure Fs where
  files : List (List String × String)
  dirs : List (List String)
deriving DecidableEq

/-- path.dirname on a segment path. -/
def dirname (p : List String) : List String := p.dropLast

/-- The last segment of a path (its file name). -/
def lastSeg (p : List String) : String := (p.getLast?).getD ""

/-- Split a slug or record path on the slash character into path
segments, as path.join does when an argument contains separators. -/
def splitSlash (s : String) : List String :=
  (splitOnCh '/' s.data).map fun l => ⟨l⟩

/-- Does the directory have a direct child (a file or another
directory)?  Models readdirSync returning a non-empty listing. -/
def hasChild (fs : Fs) (d : List String) : Bool :=
  (fs.files.any fun e => dirname e.1 == d) ||
    (fs.dirs.any fun e => e != d && dirname e == d)

/-- rmdirSync on an (empty) directory. -/
def rmdir (fs : Fs) (d : List String) : Fs :=
  { fs with dirs := fs.dirs.filter fun e => e != d }

/-- mkdirSync with the recursive flag: every prefix of the path comes
into existence. -/
def prefixesOf : List String → List (List String)
  | [] => [[]]
  | s :: rest => [] :: (prefixesOf rest).map (fun p => s :: p)

/-- mkdirSync with the recursive flag. -/
def mkdirp (fs : Fs) (d : List String) : Fs :=
  { fs with dirs := fs.dirs ++ (prefixesOf d).filter fun p => !fs.dirs.contains p }

/-- writeFileSync: overwrite the file when present, create it
otherwise. -/
def writeFile (fs : Fs) (p : List String) (c : String) : Fs :=
  if fs.files.any (fun e => e.1 == p) then
    { fs with files := fs.files.map fun e => if e.1 == p then (p, c) else e }
  else
    { fs with files := fs.files ++ [(p, c)] }

/-- Read a file back, when present. -/
def readFileFs (fs : Fs) (p : List String) : Option String :=
  (fs.files.find? fun e => e.1 == p).map fun e => e.2

/-- removeEmptyDirs of Docs.ts, driven by the reversed segment list of
the directory (the recursion of the source steps from a directory to
its parent, which is structural on the reversed path): read the
directory (a missing directory makes readdirSync throw, which the
surrounding try swallows), delete it when the listing is empty, and
recurse into the parent unless the parent equals the directory (the
filesystem root). -/
def removeEmptyDirsRev (fs : Fs) : List String → Fs
  | [] =>
    if fs.dirs.contains ([] : List String) then
      if hasChild fs [] then fs else rmdir fs []
    else fs
  | s :: rest =>
    let d := (s :: rest).reverse
    if fs.dirs.contains d then
      if hasChild fs d then fs
      else removeEmptyDirsRev (rmdir fs d) rest
    else fs

/-- removeEmptyDirs of Docs.ts. -/
def removeEmptyDirs (fs : Fs) (d : List String) : Fs :=
  removeEmptyDirsRev fs d.reverse

/-- The docs directory under a content root. -/
def docsDirOf (root : List String) : List String := root ++ ["docs"]

/-- The mutation kinds a payload hook can observe. -/
inductive Operation where
  | create
  | update
  | delete
deriving DecidableEq, BEq

/-- Whether a filesystem write throws (disk full, permissions); the
mirror hooks of the source do not guard their writeFileSync calls. -/
structure FsEnv where
  writeFails : Bool
deriving DecidableEq

/-- The healthy filesystem environment. -/
def noFsFail : FsEnv := ⟨false⟩

/-- A hook outcome: the resulting filesystem and whether an exception
escaped the hook. -/
structure HookOut where
  fs : Fs
  threw : Bool
deriving DecidableEq

/-- The afterChange hook of the Docs collection: on create or update,
ensure the docs directory exists, ensure the parent directory of the
target file exists, and write the record content to the file named by
the slug plus the content extension.  The write is not wrapped in any
try/catch, so a throwing write escapes the hook. -/
def docsAfterChangeE (env : FsEnv) (root : List String) (fs : Fs)
    (op : Operation) (doc : Doc) : HookOut :=
  if op = Operation.create ∨ op = Operation.update then
    let filePath := docsDirOf root ++ splitSlash (doc.slug ++ mdxExt)
    let fs1 := if fs.dirs.contains (docsDirOf root) then fs
               else mkdirp fs (docsDirOf root)
    let fs2 := mkdirp fs1 (dirname filePath)
    if env.writeFails then ⟨fs2, true⟩
    else ⟨writeFile fs2 filePath doc.content, false⟩
  else ⟨fs, false⟩

/-- The Docs afterChange hook against a healthy filesystem. -/
def docsAfterChange (root : List String) (fs : Fs)
    (op : Operation) (doc : Doc) : Fs :=
  (docsAfterChangeE noFsFail root fs op doc).fs

/-- The afterDelete hook of the Docs collection: unlink the mirrored
file and clean up now-empty ancestor directories.  A missing file makes
unlinkSync throw, the surrounding try swallows the error, and the
cleanup walk is then skipped. -/
def docsAfterDelete (root : List String) (fs : Fs) (doc : Doc) : Fs :=
  let filePath := docsDirOf root ++ splitSlash (doc.slug ++ mdxExt)
  if fs.files.any (fun e => e.1 == filePath) then
    let fs1 := { fs with files := fs.files.filter fun e => e.1 != filePath }
    removeEmptyDirs fs1 (dirname filePath)
  else fs

/-- The afterChange hook of the Meta collection: on create or update,
write the record content to meta.json under the record path, after
ensuring the parent directory chain exists; as in Docs, the write is
unguarded. -/
def metaAfterChangeE (env : FsEnv) (root : List String) (fs : Fs)
    (op : Operation) (path content : String) : HookOut :=
  if op = Operation.create ∨ op = Operation.update then
    let filePath := docsDirOf root ++ splitSlash path ++ ["meta.json"]
    let fs1 := mkdirp fs (dirname filePath)
    if env.writeFails then ⟨fs1, true⟩
    else ⟨writeFile fs1 filePath content, false⟩
  else ⟨fs, false⟩

/-- The afterDelete hook of the Meta collection: unlink the sidecar
file, swallowing a missing-file error; no directory cleanup. -/
def metaAfterDelete (root : List String) (fs : Fs) (path : String) : Fs :=
  let filePath := docsDirOf root ++ splitSlash path ++ ["meta.json"]
  if fs.files.any (fun e => e.1 == filePath) then
    { fs with files := fs.files.filter fun e => e.1 != filePath }
  else fs

/-- The enumeration the reconciliation pass performs: readdirSync on
the docs directory lists direct children only, so exactly the regular
files whose parent is the docs directory are visible, under their last
segment.  (A directory named with the content extension would make the
readFileSync of the script throw; no filesystem of this development
contains one.) -/
def readDocsDir (fs : Fs) (root : List String) : List (String × String) :=
  fs.files.filterMap fun e =>
    if dirname e.1 == docsDirOf root then some (lastSeg e.1, e.2) else none

/-- The reconciliation pass run against the filesystem model. -/
def syncDocsFs (store0 : List Doc) (fs : Fs) (root : List String) : SyncOut :=
  syncDocs store0 (readDocsDir fs root)

/-! ## The api-specs collection and the ingestion pipeline -/

/-- The fields of an api-spec record the hook consults. -/
structure ApiSpecDoc where
  name : String
  specUrl : String
deriving DecidableEq

/-- The guard of the afterChange hook of the ApiSpecs collection,
exactly as the source writes it; the conjunction binds tighter than
the disjunction, as in JavaScript. -/
def apiSpecsHookRuns (op : Operation) (doc : ApiSpecDoc) : Bool :=
  op == Operation.create || op == Operation.update && doc.specUrl != ""

/-- The guard as the specification states the contract: triggered after
a create or an update of a record whose specUrl is set. -/
def claimedApiGuard (op : Operation) (doc : ApiSpecDoc) : Bool :=
  (op == Operation.create || op == Operation.update) && doc.specUrl != ""

/-- The HTTP response of the spec fetch: the ok flag, and the parsed
JSON body when response.json() succeeds. -/
structure SpecResponse where
  ok : Bool
  body : Option String
deriving DecidableEq

/-- Outcomes of the external steps of the ingestion pipeline: the fetch
(none models a network failure, a rejected promise) and the generator
process (true models a non-zero exit of execSync). -/
structure IngestEnv where
  fetchResult : Option SpecResponse
  generatorFails : Bool
deriving DecidableEq

/-- What the pipeline did: the canonical swagger.json content written
(if any), whether the generator was invoked, whether an error was
logged, and whether an exception escaped the hook. -/
structure IngestOut where
  wroteSwagger : Option String
  ranGenerator : Bool
  loggedError : Bool
  threw : Bool
deriving DecidableEq

/-- The body of the try block of the ApiSpecs afterChange hook: fetch
the spec, throw on a non-ok status, parse the body, write the canonical
file, run the generator; every failure lands in the catch, which logs
and returns. -/
def runIngestion (env : IngestEnv) : IngestOut :=
  match env.fetchResult with
  | none => ⟨none, false, true, false⟩
  | some resp =>
    if !resp.ok then ⟨none, false, true, false⟩
    else match resp.body with
      | none => ⟨none, false, true, false⟩
      | some spec =>
        if env.generatorFails then ⟨some spec, true, true, false⟩
        else ⟨some spec, true, false, false⟩

/-- The whole afterChange hook of the ApiSpecs collection. -/
def apiSpecsAfterChange (env : IngestEnv) (op : Operation)
    (doc : ApiSpecDoc) : IngestOut :=
  if apiSpecsHookRuns op doc then runIngestion env
  else ⟨none, false, false, false⟩

/-! ## Auxiliary definitions used by the theorems -/

/-- Does the text contain the path separator character. -/
def containsSlash (s : String) : Bool := s.data.contains '/'

/-- Add one file to the filesystem. -/
def addFile (fs : Fs) (p : List String) (c : String) : Fs :=
  { fs with files := (p, c) :: fs.files }

/-- The record a snapshot record becomes after the create/update loop:
its content is replaced by the content of the file whose derived slug
matches, when such a file exists. -/
def mergeRecord (fs : List (String × String)) (r : Doc) : Doc :=
  match fs.find? (fun p => slugOfFile p.1 == r.slug) with
  | some p => { slug := r.slug, content := p.2 }
  | none => r

/-- The records the create/update loop appends: one per file whose
derived slug is not in the snapshot. -/
def createdDocs (snapSlugs : List String) (fs : List (String × String)) :
    List Doc :=
  (fs.filter fun p => !snapSlugs.contains (slugOfFile p.1)).map
    fun p => { slug := slugOfFile p.1, content := p.2 }

/-- A store of k records with pairwise distinct slugs (the slug of the
n-th record is n repetitions of the letter a), used to exhibit the
behaviour of the pass on stores larger than the fetch limit. -/
def manyDocs (k : Nat) : List Doc :=
  (List.range k).map fun n => { slug := ⟨List.replicate n 'a'⟩, content := "X" }

/-! ## Theorems -/

theorem noFail_deleteFails (s : String) : noFail.deleteFails s = false := rfl

theorem runDeletes_err_false (env : SyncEnv) (names : List String)
    (h : ∀ s, env.deleteFails s = false) :
    ∀ (snap : List Doc) (acc : List Doc × SyncLog),
      (runDeletes env names snap acc).err = false := by
  intro snap
  induction snap with
  | nil => intro acc; rfl
  | cons r rest ih =>
    intro acc
    simp only [runDeletes, h r.slug]
    split
    · exact ih _
    · simp only [Bool.false_eq_true, if_false]
      exact ih _

/-- C2.  Corrected.  A failing create or update is caught and logged
and never aborts the pass, and the entry point exits with code 0
whenever no delete throws; but (counterexample below) a failing delete
is not caught and aborts the pass with a non-zero exit. -/
theorem c2_pass_completes_when_deletes_succeed (env : SyncEnv)
    (store0 : List Doc) (disk : List (String × String))
    (h : ∀ s, env.deleteFails s = false) :
    (syncDocsE env store0 disk).err = false ∧
      exitCode env store0 disk = 0 := by
  have herr : (syncDocsE env store0 disk).err = false := by
    unfold syncDocsE
    exact runDeletes_err_false env _ h _ _
  refine ⟨herr, ?_⟩
  unfold exitCode
  simp [herr]

/-- Witness for C2: even with every create and every update throwing,
the pass completes and the entry point exits with code 0. -/
theorem c2_pass_completes_witness :
    (syncDocsE ⟨fun _ => true, fun _ => true, fun _ => false⟩
        [⟨"a", "X"⟩] [("b.mdx", "B")]).err = false ∧
      exitCode ⟨fun _ => true, fun _ => true, fun _ => false⟩
        [⟨"a", "X"⟩] [("b.mdx", "B")] = 0 :=
  c2_pass_completes_when_deletes_succeed _ _ _ (fun _ => rfl)

/-- Counterexample for C2: a single failing delete aborts the rest of
the pass (the second record that should have been deleted is still in
the store) and the entry point exits with code 1, although the record
store is reachable and only one per-record operation failed. -/
theorem c2_delete_failure_aborts_pass :
    (syncDocsE ⟨fun _ => false, fun _ => false, fun s => s == "b"⟩
        [⟨"b", "Y"⟩, ⟨"c", "Z"⟩] []).err = true ∧
      Doc.mk "c" "Z" ∈ (syncDocsE ⟨fun _ => false, fun _ => false, fun s => s == "b"⟩
        [⟨"b", "Y"⟩, ⟨"c", "Z"⟩] []).store ∧
      Doc.mk "b" "Y" ∈ (syncDocsE ⟨fun _ => false, fun _ => false, fun s => s == "b"⟩
        [⟨"b", "Y"⟩, ⟨"c", "Z"⟩] []).store ∧
      exitCode ⟨fun _ => false, fun _ => false, fun s => s == "b"⟩
        [⟨"b", "Y"⟩, ⟨"c", "Z"⟩] [] = 1 := by
  decide

/-- C5.  The guard of the ApiSpecs afterChange hook: because the
JavaScript conjunction binds tighter than the disjunction, the pipeline
runs on every create, even when specUrl is unset, contradicting the
stated contract (the specification itself flags this precedence
accident as a likely defect).  The theorem evaluates the code at the
failing input: a create of a record with empty specUrl runs the
pipeline, while the claimed guard is false there. -/
theorem c5_guard_precedence_bug :
    apiSpecsHookRuns Operation.create ⟨"svc", ""⟩ = true ∧
      claimedApiGuard Operation.create ⟨"svc", ""⟩ = false ∧
      (apiSpecsAfterChange ⟨some ⟨true, some "SPEC"⟩, false⟩
        Operation.create ⟨"svc", ""⟩).wroteSwagger = some "SPEC" := by
  decide

/-- C7.  Confirmed.  When the fetch of specUrl fails (network failure
or non-ok status), the failure is logged, the canonical spec file is
not written, the generator is not invoked, and no exception escapes the
hook, so the triggering mutation completes. -/
theorem c7_fetch_failure_isolated (env : IngestEnv) (op : Operation)
    (doc : ApiSpecDoc)
    (h : env.fetchResult = none ∨
      ∃ r, env.fetchResult = some r ∧ r.ok = false) :
    (apiSpecsAfterChange env op doc).wroteSwagger = none ∧
      (apiSpecsAfterChange env op doc).ranGenerator = false ∧
      (apiSpecsAfterChange env op doc).threw = false ∧
      (apiSpecsHookRuns op doc = true →
        (apiSpecsAfterChange env op doc).loggedError = true) := by
  rcases h with h | ⟨r, hr, hok⟩
  · unfold apiSpecsAfterChange runIngestion
    rw [h]
    by_cases hg : apiSpecsHookRuns op doc <;> simp [hg]
  · unfold apiSpecsAfterChange runIngestion
    rw [hr]
    by_cases hg : apiSpecsHookRuns op doc <;> simp [hg, hok]

/-- Witness for C7 at a concrete refused connection. -/
theorem c7_fetch_failure_witness :
    (apiSpecsAfterChange ⟨none, false⟩ Operation.create
        ⟨"svc", "http://x"⟩).wroteSwagger = none ∧
      (apiSpecsAfterChange ⟨none, false⟩ Operation.create
        ⟨"svc", "http://x"⟩).ranGenerator = false ∧
      (apiSpecsAfterChange ⟨none, false⟩ Operation.create
        ⟨"svc", "http://x"⟩).threw = false ∧
      (apiSpecsHookRuns Operation.create ⟨"svc", "http://x"⟩ = true →
        (apiSpecsAfterChange ⟨none, false⟩ Operation.create
          ⟨"svc", "http://x"⟩).loggedError = true) :=
  c7_fetch_failure_isolated ⟨none, false⟩ Operation.create
    ⟨"svc", "http://x"⟩ (Or.inl rfl)

/-- C9.  Corrected.  The afterChange mirror hooks of Docs and of Meta
do not guard their writeFileSync call: an exception escapes the hook
exactly when the hook fired (create or update) and the write throws; a
failure of the afterDelete unlink, by contrast, is swallowed. -/
theorem c9_write_failure_propagation (env : FsEnv) (root : List String)
    (fs : Fs) (op : Operation) (doc : Doc) (path content : String) :
    ((docsAfterChangeE env root fs op doc).threw = true ↔
        ((op = Operation.create ∨ op = Operation.update) ∧ env.writeFails = true)) ∧
      ((metaAfterChangeE env root fs op path content).threw = true ↔
        ((op = Operation.create ∨ op = Operation.update) ∧ env.writeFails = true)) := by
  obtain ⟨b⟩ := env
  cases b <;> cases op <;>
    simp [docsAfterChangeE, metaAfterChangeE]

/-- Counterexample for C9: a throwing write in the Docs afterChange
hook escapes the hook (nothing is caught or logged inside it). -/
theorem c9_write_failure_escapes :
    (docsAfterChangeE ⟨true⟩ ["c", "content"] ⟨[], [[]]⟩
      Operation.create ⟨"new", "hello"⟩).threw = true := by
  decide

theorem find_over_overwrite (l : List (List String × String))
    (p : List String) (c : String) :
    (l.map fun e => if e.1 == p then (p, c) else e).find?
        (fun e => e.1 == p) =
      if l.any (fun e => e.1 == p) then some (p, c) else none := by
  induction l with
  | nil => rfl
  | cons e rest ih =>
    by_cases he : e.1 = p
    · simp [he, List.find?_cons]
    · have hb : (e.1 == p) = false := by simp [he]
      simp only [List.map_cons, hb, Bool.false_eq_true, if_false,
        List.find?_cons, List.any_cons, Bool.false_or]
      exact ih

theorem readFileFs_writeFile (fs : Fs) (p : List String) (c : String) :
    readFileFs (writeFile fs p c) p = some c := by
  unfold writeFile
  split
  next h =>
    unfold readFileFs
    rw [find_over_overwrite, h]
    rfl
  next h =>
    unfold readFileFs
    have hnone : fs.files.find? (fun e => e.1 == p) = none := by
      apply List.find?_eq_none.mpr
      intro x hx hbe
      apply h
      refine List.any_eq_true.mpr ⟨x, hx, ?_⟩
      exact hbe
    simp only []
    rw [List.find?_append, hnone]
    simp [List.find?]

theorem writeFile_dirs (fs : Fs) (p : List String) (c : String) :
    (writeFile fs p c).dirs = fs.dirs := by
  unfold writeFile
  split <;> rfl

theorem mkdirp_mem (fs : Fs) (d : List String) (q : List String)
    (h : q ∈ prefixesOf d) : q ∈ (mkdirp fs d).dirs := by
  unfold mkdirp
  simp only [List.mem_append]
  by_cases hq : q ∈ fs.dirs
  · exact Or.inl hq
  · right
    rw [List.mem_filter]
    refine ⟨h, ?_⟩
    rw [Bool.not_eq_true']
    exact Bool.eq_false_iff.mpr (fun hc => hq (List.elem_iff.mp hc))

theorem mkdirp_mem_of_mem (fs : Fs) (d : List String) (q : List String)
    (h : q ∈ fs.dirs) : q ∈ (mkdirp fs d).dirs := by
  unfold mkdirp
  simp only [List.mem_append]
  exact Or.inl h

/-- C8.  Confirmed.  On every create or update the Docs mirror hook
ensures the directory chain containing the target file exists and
writes the record content to the file named by the slug with the
content extension appended; reading that file back yields exactly the
record content, with no reconciliation pass involved. -/
theorem c8_mirror_write (root : List String) (fs : Fs) (op : Operation)
    (doc : Doc) (h : op = Operation.create ∨ op = Operation.update) :
    readFileFs (docsAfterChange root fs op doc)
        (docsDirOf root ++ splitSlash (doc.slug ++ mdxExt)) =
      some doc.content ∧
    ∀ q ∈ prefixesOf (dirname (docsDirOf root ++ splitSlash (doc.slug ++ mdxExt))),
      q ∈ (docsAfterChange root fs op doc).dirs := by
  have hout : docsAfterChange root fs op doc =
      writeFile
        (mkdirp (if fs.dirs.contains (docsDirOf root) then fs
                 else mkdirp fs (docsDirOf root))
          (dirname (docsDirOf root ++ splitSlash (doc.slug ++ mdxExt))))
        (docsDirOf root ++ splitSlash (doc.slug ++ mdxExt)) doc.content := by
    unfold docsAfterChange docsAfterChangeE
    rw [if_pos h]
    rfl
  rw [hout]
  constructor
  · exact readFileFs_writeFile _ _ _
  · intro q hq
    rw [writeFile_dirs]
    exact mkdirp_mem _ _ _ hq

/-- Witness for C8: creating the record with id new and content hello
against an empty tree makes the file new.mdx under the docs directory
hold exactly hello. -/
theorem c8_mirror_write_witness :
    readFileFs (docsAfterChange ["c", "content"] ⟨[], [[]]⟩
        Operation.create ⟨"new", "hello"⟩)
        (docsDirOf ["c", "content"] ++ splitSlash ("new" ++ mdxExt)) =
      some "hello" :=
  (c8_mirror_write ["c", "content"] ⟨[], [[]]⟩ Operation.create
    ⟨"new", "hello"⟩ (Or.inl rfl)).1

theorem removeEmptyDirsRev_files :
    ∀ (rev : List String) (fs : Fs),
      (removeEmptyDirsRev fs rev).files = fs.files := by
  intro rev
  induction rev with
  | nil =>
    intro fs
    unfold removeEmptyDirsRev
    split
    · split <;> rfl
    · rfl
  | cons s rest ih =>
    intro fs
    unfold removeEmptyDirsRev
    dsimp only
    split
    · split
      · rfl
      · rw [ih]
        rfl
    · rfl

theorem hasChild_of_file (fs : Fs) (d : List String)
    (h : ∃ e ∈ fs.files, dirname e.1 = d) : hasChild fs d = true := by
  obtain ⟨e, he, hd⟩ := h
  unfold hasChild
  rw [Bool.or_eq_true]
  left
  refine List.any_eq_true.mpr ⟨e, he, ?_⟩
  simp [hd]

theorem removeEmptyDirsRev_keeps_filed :
    ∀ (rev : List String) (fs : Fs) (dGood : List String),
      dGood ∈ fs.dirs → (∃ e ∈ fs.files, dirname e.1 = dGood) →
        dGood ∈ (removeEmptyDirsRev fs rev).dirs := by
  intro rev
  induction rev with
  | nil =>
    intro fs dGood hmem hfile
    unfold removeEmptyDirsRev
    split
    · split
      next => exact hmem
      next hnc =>
        by_cases hdg : dGood = ([] : List String)
        · exact absurd (hdg ▸ hasChild_of_file fs dGood hfile) hnc
        · unfold rmdir
          simp only [List.mem_filter]
          refine ⟨hmem, ?_⟩
          simp [hdg]
    · exact hmem
  | cons s rest ih =>
    intro fs dGood hmem hfile
    unfold removeEmptyDirsRev
    dsimp only
    split
    · split
      next => exact hmem
      next hnc =>
        by_cases hdg : dGood = (s :: rest).reverse
        · exact absurd (hdg ▸ hasChild_of_file fs dGood hfile) hnc
        · refine ih _ dGood ?_ ?_
          · unfold rmdir
            simp only [List.mem_filter]
            refine ⟨hmem, ?_⟩
            simp only [bne_iff_ne, ne_eq]
            intro hcon
            exact hdg hcon
          · unfold rmdir
            exact hfile
    · exact hmem

/-- C3.  Corrected.  After the afterDelete unlink, the hook walks
upward deleting each directory that has become empty, never touching
any file and never deleting a directory that still directly contains a
file, and it stops at the first non-empty directory; but it does not
stop at the content root (counterexample below): the walk continues to
the filesystem root, so empty directories at or above the content root
are deleted too.  The third conjunct is the nested test of the
specification: removing the only file of a leaf directory nested three
levels deep deletes the three now-empty directories while a sibling
directory that still holds a file survives, together with everything
above it. -/
theorem c3_empty_dir_cleanup :
    (∀ (fs : Fs) (d : List String), (removeEmptyDirs fs d).files = fs.files) ∧
    (∀ (fs : Fs) (d dGood : List String),
      dGood ∈ fs.dirs → (∃ e ∈ fs.files, dirname e.1 = dGood) →
        dGood ∈ (removeEmptyDirs fs d).dirs) ∧
    docsAfterDelete ["c", "content"]
        ⟨[(["c", "content", "docs", "x", "y", "z", "n.mdx"], "T"),
          (["c", "content", "docs", "other", "o.mdx"], "O")],
         [[], ["c"], ["c", "content"], ["c", "content", "docs"],
          ["c", "content", "docs", "x"], ["c", "content", "docs", "x", "y"],
          ["c", "content", "docs", "x", "y", "z"],
          ["c", "content", "docs", "other"]]⟩
        ⟨"x/y/z/n", "T"⟩ =
      ⟨[(["c", "content", "docs", "other", "o.mdx"], "O")],
       [[], ["c"], ["c", "content"], ["c", "content", "docs"],
        ["c", "content", "docs", "other"]]⟩ := by
  refine ⟨?_, ?_, by decide⟩
  · intro fs d
    exact removeEmptyDirsRev_files _ _
  · intro fs d dGood hmem hfile
    exact removeEmptyDirsRev_keeps_filed _ _ _ hmem hfile

/-- Witness for C3 at concrete inputs: a directory still holding a file
survives a cleanup walk started elsewhere. -/
theorem c3_empty_dir_cleanup_witness :
    ["d", "keep"] ∈ (removeEmptyDirs
        ⟨[(["d", "keep", "f.txt"], "x")], [[], ["d"], ["d", "keep"], ["d", "gone"]]⟩
        ["d", "gone"]).dirs :=
  c3_empty_dir_cleanup.2.1
    ⟨[(["d", "keep", "f.txt"], "x")], [[], ["d"], ["d", "keep"], ["d", "gone"]]⟩
    ["d", "gone"] ["d", "keep"] (by decide)
    ⟨(["d", "keep", "f.txt"], "x"), by decide, by decide⟩

/-- Counterexample for C3: when the docs directory becomes empty the
walk deletes it, then the content root, then every empty ancestor: the
content root itself disappears, refuting the claim that no directory at
or above the content root is ever deleted. -/
theorem c3_walk_passes_content_root :
    ["c", "content"] ∈
        (Fs.mk [(["c", "content", "docs", "a.mdx"], "X")]
          [[], ["c"], ["c", "content"], ["c", "content", "docs"]]).dirs ∧
      ["c", "content"] ∉
        (docsAfterDelete ["c", "content"]
          ⟨[(["c", "content", "docs", "a.mdx"], "X")],
           [[], ["c"], ["c", "content"], ["c", "content", "docs"]]⟩
          ⟨"a", "X"⟩).dirs := by
  decide

theorem splitOnChNe_cons (sep c : Char) (cs : List Char) :
    splitOnChNe sep (c :: cs) =
      if c == sep then ([], (splitOnChNe sep cs).1 :: (splitOnChNe sep cs).2)
      else (c :: (splitOnChNe sep cs).1, (splitOnChNe sep cs).2) := rfl

theorem joinSep_cons2 (sep : Char) (p q : List Char) (t : List (List Char)) :
    joinSep sep (p :: q :: t) = p ++ sep :: joinSep sep (q :: t) := rfl

theorem joinSep_split (sep : Char) :
    ∀ l : List Char,
      joinSep sep ((splitOnChNe sep l).1 :: (splitOnChNe sep l).2) = l := by
  intro l
  induction l with
  | nil => rfl
  | cons c cs ih =>
    rw [splitOnChNe_cons]
    by_cases hc : c = sep
    · rw [if_pos (by simp [hc])]
      rw [joinSep_cons2, List.nil_append, ih, hc]
    · rw [if_neg (by simp [hc])]
      cases h2 : (splitOnChNe sep cs).2 with
      | nil =>
        rw [h2] at ih
        show joinSep sep [c :: (splitOnChNe sep cs).1] = c :: cs
        show c :: (splitOnChNe sep cs).1 = c :: cs
        have hj : joinSep sep [(splitOnChNe sep cs).1] = (splitOnChNe sep cs).1 := rfl
        rw [hj] at ih
        rw [ih]
      | cons q t =>
        rw [h2] at ih
        rw [joinSep_cons2] at ih
        rw [joinSep_cons2, List.cons_append, ih]

theorem splitAtFirst_none (sep : Char) :
    ∀ l : List Char, splitAtFirst sep l = none → splitOnChNe sep l = (l, []) := by
  intro l
  induction l with
  | nil => intro _; rfl
  | cons c cs ih =>
    intro h
    unfold splitAtFirst at h
    by_cases hc : (c == sep) = true
    · rw [if_pos hc] at h
      exact absurd h (by simp)
    · rw [if_neg hc] at h
      have h2 : splitAtFirst sep cs = none := by
        cases hsc : splitAtFirst sep cs with
        | none => rfl
        | some r =>
          rw [hsc] at h
          simp at h
      rw [splitOnChNe_cons, ih h2, if_neg hc]

theorem splitAtFirst_some (sep : Char) :
    ∀ (l a b : List Char), splitAtFirst sep l = some (a, b) →
      (splitOnChNe sep l).1 = a ∧
        (splitOnChNe sep l).2 =
          (splitOnChNe sep b).1 :: (splitOnChNe sep b).2 := by
  intro l
  induction l with
  | nil =>
    intro a b h
    exact absurd h (by simp [splitAtFirst])
  | cons c cs ih =>
    intro a b h
    unfold splitAtFirst at h
    by_cases hc : (c == sep) = true
    · rw [if_pos hc] at h
      injection h with h2
      have ha : a = [] := (Prod.mk.injEq _ _ _ _ ▸ h2).1.symm
      have hb : b = cs := (Prod.mk.injEq _ _ _ _ ▸ h2).2.symm
      subst ha
      subst hb
      rw [splitOnChNe_cons, if_pos hc]
      exact ⟨rfl, rfl⟩
    · rw [if_neg hc] at h
      cases hsc : splitAtFirst sep cs with
      | none =>
        rw [hsc] at h
        simp at h
      | some r =>
        rw [hsc] at h
        simp only [Option.map_some'] at h
        injection h with h2
        have ha : a = c :: r.1 := (Prod.mk.injEq _ _ _ _ ▸ h2).1.symm
        have hb : b = r.2 := (Prod.mk.injEq _ _ _ _ ▸ h2).2.symm
        obtain ⟨ih1, ih2⟩ := ih r.1 r.2 (by rw [hsc])
        subst hb
        rw [splitOnChNe_cons, if_neg hc]
        constructor
        · show c :: (splitOnChNe sep cs).1 = a
          rw [ih1, ha]
        · show (splitOnChNe sep cs).2 = _
          exact ih2

theorem parseLine_eq_spec (line : String) :
    parseLine line = parseLineSpec line := by
  unfold parseLine parseLineSpec
  dsimp only
  cases hsf : splitAtFirst ':' line.data with
  | none =>
    have h := splitAtFirst_none ':' line.data hsf
    rw [h]
    simp
  | some ab =>
    obtain ⟨a, b⟩ := ab
    obtain ⟨h1, h2⟩ := splitAtFirst_some ':' line.data a b hsf
    rw [h1, h2]
    by_cases ha : a = []
    · subst ha
      simp
    · have hane : (a != []) = true := by simp [ha]
      have hjoin : joinSep ':' ((splitOnChNe ':' b).1 :: (splitOnChNe ':' b).2) = b :=
        joinSep_split ':' b
      simp [hane, hjoin]

/-- Counterexample for C6: a value wrapped in two different quote
characters.  The source strips one leading and one trailing quote
character independently, so the single quote and the double quote are
both removed; under the claimed matching-quotes rule the value would be
unchanged. -/
theorem c6_quote_stripping_counterexample :
    coerceVal "\u0027Hi\u0022" = FmValue.str "Hi" ∧
      coerceValMatching "\u0027Hi\u0022" = FmValue.str "\u0027Hi\u0022" ∧
      parseLine "title: \u0027Hi\u0022" = some ("title", FmValue.str "Hi") := by
  decide

/-- C6.  Corrected.  Every frontmatter line is split at the first
colon, the key and the value are trimmed, and the value is coerced with
the priority order of the claim, except that the final quote stripping
removes one leading quote character and one trailing quote character
independently (they need not match); the concrete example of the claim
parses exactly as stated. -/
theorem c6_frontmatter_line_parsing :
    (∀ line : String, parseLine line = parseLineSpec line) ∧
      parseFrontmatter "---\nfull: true\ncount: 3\ntitle: \u0022Hi\u0022\n---\nBody" =
        ([("full", FmValue.bool true), ("count", FmValue.num "3"),
          ("title", FmValue.str "Hi")], "Body") :=
  ⟨parseLine_eq_spec, by decide⟩

theorem manyDocs_length (k : Nat) : (manyDocs k).length = k := by
  simp [manyDocs]

theorem manyDocs_slug_ne (k : Nat) (s : String) (c : Char) (hc : c ∈ s.data)
    (hca : ¬ c = 'a') : ∀ d ∈ manyDocs k, d.slug ≠ s := by
  intro d hd
  unfold manyDocs at hd
  rw [List.mem_map] at hd
  obtain ⟨n, _, hn⟩ := hd
  rw [← hn]
  dsimp only
  intro h
  have hdata : List.replicate n 'a' = s.data := congrArg String.data h
  rw [← hdata] at hc
  exact hca (List.eq_of_mem_replicate hc)

theorem fetchedDocs_of_overflow (d : Doc) :
    fetchedDocs (manyDocs fetchLimit ++ [d]) = manyDocs fetchLimit := by
  unfold fetchedDocs
  exact List.take_left' (manyDocs_length fetchLimit)

/-- C4.  Corrected.  The pass fetches the record set with an explicit
limit of 1000, so the snapshot used for the create/update/delete
decisions is the full store exactly when the store holds at most 1000
records. -/
theorem c4_fetch_complete_when_small (store0 : List Doc)
    (h : store0.length ≤ fetchLimit) :
    fetchedDocs store0 = store0 ∧
      ∀ r ∈ store0, r.slug ∈ (fetchedDocs store0).map (fun d => d.slug) := by
  have heq : fetchedDocs store0 = store0 := List.take_of_length_le h
  refine ⟨heq, ?_⟩
  intro r hr
  rw [heq]
  exact List.mem_map.mpr ⟨r, hr, rfl⟩

/-- Witness for C4 at a one-record store. -/
theorem c4_fetch_complete_witness :
    fetchedDocs [Doc.mk "a" "X"] = [Doc.mk "a" "X"] ∧
      ∀ r ∈ [Doc.mk "a" "X"],
        r.slug ∈ (fetchedDocs [Doc.mk "a" "X"]).map (fun d => d.slug) :=
  c4_fetch_complete_when_small [Doc.mk "a" "X"] (by decide)

/-- Counterexample for C4: in a store of 1001 records the 1001st record
is not part of the fetched snapshot, so its slug is missing from the
set of store slugs the pass uses for its decisions. -/
theorem c4_fetch_truncates_large_store :
    Doc.mk "b" "Y" ∈ manyDocs fetchLimit ++ [Doc.mk "b" "Y"] ∧
      ∀ d ∈ fetchedDocs (manyDocs fetchLimit ++ [Doc.mk "b" "Y"]),
        d.slug ≠ "b" := by
  constructor
  · exact List.mem_append_right _ (List.mem_singleton.mpr rfl)
  · intro d hd
    rw [fetchedDocs_of_overflow] at hd
    exact manyDocs_slug_ne fetchLimit "b" 'b' (by decide) (by decide) d hd

theorem runDeletes_store_subset (env : SyncEnv) (names : List String) :
    ∀ (snap st : List Doc) (log : SyncLog) (d : Doc),
      d ∈ (runDeletes env names snap (st, log)).store → d ∈ st := by
  intro snap
  induction snap with
  | nil => intro st log d hd; exact hd
  | cons q rest ih =>
    intro st log d hd
    unfold runDeletes at hd
    by_cases h1 : names.contains (q.slug ++ mdxExt) = true
    · rw [if_pos h1] at hd
      exact ih _ _ _ hd
    · rw [if_neg h1] at hd
      by_cases h2 : env.deleteFails q.slug = true
      · rw [if_pos h2] at hd
        exact hd
      · rw [if_neg h2] at hd
        have := ih _ _ _ hd
        exact List.mem_of_mem_filter this

theorem runDeletes_removes (names : List String) :
    ∀ (snap : List Doc) (r : Doc), r ∈ snap →
      names.contains (r.slug ++ mdxExt) = false →
      ∀ (st : List Doc) (log : SyncLog) (d : Doc),
        d ∈ (runDeletes noFail names snap (st, log)).store → d.slug ≠ r.slug := by
  intro snap
  induction snap with
  | nil => intro r hr; exact absurd hr (List.not_mem_nil r)
  | cons q rest ih =>
    intro r hr hfalse st log d hd
    unfold runDeletes at hd
    rcases List.mem_cons.mp hr with hrq | hrr
    · subst hrq
      rw [hfalse] at hd
      simp only [Bool.false_eq_true, if_false] at hd
      rw [show noFail.deleteFails r.slug = false from rfl] at hd
      simp only [Bool.false_eq_true, if_false] at hd
      have hsub := runDeletes_store_subset noFail names rest _ _ d hd
      have := List.mem_filter.mp hsub
      simpa using this.2
    · by_cases h1 : names.contains (q.slug ++ mdxExt) = true
      · rw [if_pos h1] at hd
        exact ih r hrr hfalse _ _ d hd
      · rw [if_neg h1] at hd
        rw [show noFail.deleteFails q.slug = false from rfl] at hd
        simp only [Bool.false_eq_true, if_false] at hd
        exact ih r hrr hfalse _ _ d hd

theorem runDeletes_keeps (names : List String) :
    ∀ (snap st : List Doc) (log : SyncLog) (d : Doc), d ∈ st →
      (∀ q ∈ snap, q.slug ≠ d.slug) →
      d ∈ (runDeletes noFail names snap (st, log)).store := by
  intro snap
  induction snap with
  | nil => intro st log d hd _; exact hd
  | cons q rest ih =>
    intro st log d hd hq
    unfold runDeletes
    by_cases h1 : names.contains (q.slug ++ mdxExt) = true
    · rw [if_pos h1]
      exact ih _ _ d hd (fun x hx => hq x (List.mem_cons_of_mem q hx))
    · rw [if_neg h1]
      rw [show noFail.deleteFails q.slug = false from rfl]
      simp only [Bool.false_eq_true, if_false]
      refine ih _ _ d ?_ (fun x hx => hq x (List.mem_cons_of_mem q hx))
      unfold applyDelete
      rw [List.mem_filter]
      refine ⟨hd, ?_⟩
      have : q.slug ≠ d.slug := hq q (List.mem_cons_self q rest)
      simp [bne_iff_ne]
      exact fun hcon => this hcon.symm

theorem containsSlash_append_left (s t : String)
    (h : containsSlash s = true) : containsSlash (s ++ t) = true := by
  unfold containsSlash at h ⊢
  have hdata : (s ++ t).data = s.data ++ t.data := rfl
  rw [hdata]
  exact List.elem_iff.mpr (List.mem_append_left _ (List.elem_iff.mp h))

theorem readDocsDir_ignores_nested (fs : Fs) (root : List String)
    (p : List String) (c : String) (h : dirname p ≠ docsDirOf root) :
    readDocsDir (addFile fs p c) root = readDocsDir fs root := by
  unfold readDocsDir addFile
  dsimp only
  rw [List.filterMap_cons]
  dsimp only
  rw [if_neg (by simp [h])]

/-- C10.  Corrected.  The pass enumerates only direct children of the
docs directory ending in the content extension, so a content file in
any subdirectory never influences the pass (first conjunct: adding a
nested file leaves the whole pass result unchanged); and a fetched
record whose slug contains a path separator is deleted by the pass,
because no direct-child file name contains a separator (second
conjunct) — but only records inside the 1000-record fetch window are
deleted, which is what the counterexample forces the claim to concede. -/
theorem c10_top_level_enumeration_only :
    (∀ (store0 : List Doc) (fs : Fs) (root : List String)
       (p : List String) (c : String), dirname p ≠ docsDirOf root →
         syncDocsFs store0 (addFile fs p c) root = syncDocsFs store0 fs root) ∧
    (∀ (store0 : List Doc) (fs : Fs) (root : List String) (r : Doc),
       r ∈ fetchedDocs store0 → containsSlash r.slug = true →
       (∀ e ∈ fs.files, dirname e.1 = docsDirOf root →
         containsSlash (lastSeg e.1) = false) →
       ∀ d ∈ (syncDocsFs store0 fs root).store, d.slug ≠ r.slug) := by
  constructor
  · intro store0 fs root p c h
    unfold syncDocsFs
    rw [readDocsDir_ignores_nested fs root p c h]
  · intro store0 fs root r hr hslash hfiles d hd
    have hnotin :
        (((readDocsDir fs root).filter (fun p => isMdxName p.1)).map
            (fun p => p.1)).contains (r.slug ++ mdxExt) = false := by
      apply Bool.eq_false_iff.mpr
      intro hc
      have hmem := List.elem_iff.mp hc
      rw [List.mem_map] at hmem
      obtain ⟨q, hq, hq1⟩ := hmem
      have hq2 := List.mem_of_mem_filter hq
      unfold readDocsDir at hq2
      rw [List.mem_filterMap] at hq2
      obtain ⟨e, he, heq⟩ := hq2
      by_cases hdd : (dirname e.1 == docsDirOf root) = true
      · rw [if_pos hdd] at heq
        injection heq with h3
        have hns := hfiles e he (by simpa using hdd)
        rw [show lastSeg e.1 = q.1 from congrArg Prod.fst h3, hq1] at hns
        rw [containsSlash_append_left r.slug mdxExt hslash] at hns
        exact Bool.true_eq_false.mp hns
      · rw [if_neg hdd] at heq
        exact Option.noConfusion heq
    unfold syncDocsFs syncDocs syncDocsE at hd
    dsimp only at hd
    exact runDeletes_removes _ _ r hr hnotin _ _ d hd

/-- Witness for C10: a file nested under a subdirectory of the docs
directory does not change the pass, and a one-record store whose
record slug contains a separator loses that record in the pass. -/
theorem c10_top_level_enumeration_witness :
    syncDocsFs [] (addFile ⟨[], [[]]⟩
        ["c", "content", "docs", "sub", "n.mdx"] "N") ["c", "content"] =
      syncDocsFs [] ⟨[], [[]]⟩ ["c", "content"] ∧
    ∀ d ∈ (syncDocsFs [Doc.mk "a/b" "Z"] ⟨[], [[]]⟩ ["c", "content"]).store,
      d.slug ≠ "a/b" :=
  ⟨c10_top_level_enumeration_only.1 [] ⟨[], [[]]⟩ ["c", "content"]
      ["c", "content", "docs", "sub", "n.mdx"] "N" (by decide),
   fun d hd => c10_top_level_enumeration_only.2 [Doc.mk "a/b" "Z"] ⟨[], [[]]⟩
      ["c", "content"] (Doc.mk "a/b" "Z") (by decide) (by decide)
      (fun e he _ => absurd he (List.not_mem_nil e)) d hd⟩

/-- Counterexample for C10: in a store of 1001 records, the 1001st
record has a slug containing a path separator (so no top-level mdx file
can correspond to it), the docs directory is empty, and yet the record
survives the pass, because the delete loop only visits the 1000 fetched
records. -/
theorem c10_slash_record_survives_beyond_fetch_window :
    containsSlash "x/y" = true ∧
      Doc.mk "x/y" "Z" ∈ manyDocs fetchLimit ++ [Doc.mk "x/y" "Z"] ∧
      (Fs.mk [] [[]]).files = [] ∧
      Doc.mk "x/y" "Z" ∈ (syncDocsFs (manyDocs fetchLimit ++ [Doc.mk "x/y" "Z"])
        ⟨[], [[]]⟩ ["c", "content"]).store := by
  refine ⟨by decide, List.mem_append_right _ (List.mem_singleton.mpr rfl), rfl, ?_⟩
  show Doc.mk "x/y" "Z" ∈ (runDeletes noFail []
    (fetchedDocs (manyDocs fetchLimit ++ [Doc.mk "x/y" "Z"]))
    (manyDocs fetchLimit ++ [Doc.mk "x/y" "Z"], emptyLog)).store
  rw [fetchedDocs_of_overflow]
  apply runDeletes_keeps
  · exact List.mem_append_right _ (List.mem_singleton.mpr rfl)
  · intro q hq
    exact manyDocs_slug_ne fetchLimit "x/y" 'x' (by decide) (by decide) q hq

theorem mergeRecord_slug (fs : List (String × String)) (r : Doc) :
    (mergeRecord fs r).slug = r.slug := by
  unfold mergeRecord
  split <;> rfl

theorem mergeRecord_nil (r : Doc) : mergeRecord [] r = r := rfl

theorem mergeRecord_cons (p : String × String) (fs : List (String × String))
    (r : Doc) :
    mergeRecord (p :: fs) r =
      if slugOfFile p.1 == r.slug then ⟨r.slug, p.2⟩ else mergeRecord fs r := by
  unfold mergeRecord
  rw [List.find?_cons]
  by_cases h : (slugOfFile p.1 == r.slug) = true
  · rw [h]
    rfl
  · rw [Bool.eq_false_iff.mpr h]
    rfl

theorem createdDocs_cons_mem (snapSlugs : List String) (p : String × String)
    (fs : List (String × String))
    (h : snapSlugs.contains (slugOfFile p.1) = true) :
    createdDocs snapSlugs (p :: fs) = createdDocs snapSlugs fs := by
  have hm : slugOfFile p.1 ∈ snapSlugs := List.elem_iff.mp h
  unfold createdDocs
  rw [List.filter_cons]
  simp [hm]

theorem createdDocs_cons_notmem (snapSlugs : List String)
    (p : String × String) (fs : List (String × String))
    (h : snapSlugs.contains (slugOfFile p.1) = false) :
    createdDocs snapSlugs (p :: fs) =
      Doc.mk (slugOfFile p.1) p.2 :: createdDocs snapSlugs fs := by
  have hm : slugOfFile p.1 ∉ snapSlugs :=
    fun hc => Bool.true_eq_false.mp ((List.elem_iff.mpr hc) ▸ h)
  unfold createdDocs
  rw [List.filter_cons]
  simp [hm]

theorem applyUpdate_slugs (st : List Doc) (slug content : String) :
    (applyUpdate st slug content).map (fun d => d.slug) =
      st.map (fun d => d.slug) := by
  unfold applyUpdate
  rw [List.map_map]
  apply List.map_congr_left
  intro d _
  dsimp only [Function.comp]
  split <;> rfl

theorem applyUpdate_append (l1 l2 : List Doc) (slug content : String) :
    applyUpdate (l1 ++ l2) slug content =
      applyUpdate l1 slug content ++ applyUpdate l2 slug content := by
  unfold applyUpdate
  exact List.map_append _ _ _

theorem applyUpdate_id_of_not_mem (l : List Doc) (slug content : String)
    (h : slug ∉ l.map (fun d => d.slug)) : applyUpdate l slug content = l := by
  unfold applyUpdate
  conv_rhs => rw [← List.map_id l]
  apply List.map_congr_left
  intro d hd
  have hne : d.slug ≠ slug :=
    fun he => h (he ▸ List.mem_map_of_mem (fun d => d.slug) hd)
  simp [hne]

theorem find?_nodup_self :
    ∀ (l : List Doc), (l.map (fun d => d.slug)).Nodup →
      ∀ r ∈ l, l.find? (fun d => d.slug == r.slug) = some r := by
  intro l
  induction l with
  | nil => intro _ r hr; exact absurd hr (List.not_mem_nil r)
  | cons q rest ih =>
    intro hnd r hr
    rw [List.map_cons, List.nodup_cons] at hnd
    rw [List.find?_cons]
    rcases List.mem_cons.mp hr with hrq | hrr
    · subst hrq
      rw [beq_self_eq_true]
    · have hne : (q.slug == r.slug) = false := by
        apply Bool.eq_false_iff.mpr
        intro hc
        have heq : q.slug = r.slug := beq_iff_eq.mp hc
        exact hnd.1 (heq ▸ List.mem_map_of_mem (fun d => d.slug) hrr)
      rw [hne]
      exact ih hnd.2 r hrr

theorem string_append_right_cancel (s1 s2 e : String)
    (h : s1 ++ e = s2 ++ e) : s1 = s2 := by
  have hd : s1.data ++ e.data = s2.data ++ e.data := congrArg String.data h
  have hdd : s1.data = s2.data := List.append_cancel_right hd
  cases s1
  cases s2
  exact congrArg String.mk hdd

theorem runDeletes_store_closed (names : List String) :
    ∀ (snap st : List Doc) (log : SyncLog),
      (runDeletes noFail names snap (st, log)).store =
        st.filter (fun d => names.contains (d.slug ++ mdxExt) ||
          !((snap.map (fun q => q.slug)).contains d.slug)) := by
  intro snap
  induction snap with
  | nil =>
    intro st log
    show st = _
    simp
  | cons q rest ih =>
    intro st log
    unfold runDeletes
    by_cases h1 : names.contains (q.slug ++ mdxExt) = true
    · have hm : q.slug ++ mdxExt ∈ names := List.elem_iff.mp h1
      rw [if_pos h1, ih]
      apply List.filter_congr
      intro d _
      by_cases hdq : d.slug = q.slug
      · rw [hdq]
        simp [hm]
      · simp only [List.map_cons, List.contains_cons]
        rw [show (d.slug == q.slug) = false from by simp [hdq]]
        simp
    · rw [if_neg h1]
      rw [show noFail.deleteFails q.slug = false from rfl]
      simp only [Bool.false_eq_true, if_false]
      rw [ih]
      unfold applyDelete
      rw [List.filter_filter]
      apply List.filter_congr
      intro d _
      by_cases hdq : d.slug = q.slug
      · rw [hdq]
        have hm : q.slug ++ mdxExt ∉ names :=
          fun hc => h1 (List.elem_iff.mpr hc)
        simp [hm]
      · simp only [List.map_cons, List.contains_cons]
        rw [show (d.slug == q.slug) = false from by simp [hdq]]
        rw [show (d.slug != q.slug) = true from by simp [hdq]]
        simp

theorem mergeRecord_map_update (p : String × String)
    (fs : List (String × String)) (cur : List Doc)
    (hK2 : slugOfFile p.1 ∉ fs.map (fun q => slugOfFile q.1)) :
    (applyUpdate cur (slugOfFile p.1) p.2).map (mergeRecord fs) =
      cur.map (mergeRecord (p :: fs)) := by
  unfold applyUpdate
  rw [List.map_map]
  apply List.map_congr_left
  intro d _
  dsimp only [Function.comp]
  by_cases hds : d.slug = slugOfFile p.1
  · have hb1 : (d.slug == slugOfFile p.1) = true := beq_iff_eq.mpr hds
    have hb2 : (slugOfFile p.1 == d.slug) = true := beq_iff_eq.mpr hds.symm
    rw [if_pos hb1, mergeRecord_cons, if_pos hb2]
    show mergeRecord fs (Doc.mk d.slug p.2) = Doc.mk d.slug p.2
    unfold mergeRecord
    have hnone2 : fs.find? (fun q => slugOfFile q.1 == (Doc.mk d.slug p.2).slug) = none := by
      apply List.find?_eq_none.mpr
      intro q hq hbe
      apply hK2
      have : slugOfFile q.1 = slugOfFile p.1 := by
        rw [beq_iff_eq.mp hbe]
        exact hds
      exact this ▸ List.mem_map_of_mem (fun q => slugOfFile q.1) hq
    rw [hnone2]
  · have hb1 : (d.slug == slugOfFile p.1) = false := by simp [hds]
    have hb2 : (slugOfFile p.1 == d.slug) = false := by
      apply Bool.eq_false_iff.mpr
      intro hc
      exact hds (beq_iff_eq.mp hc).symm
    rw [hb1]
    simp only [Bool.false_eq_true, if_false]
    rw [mergeRecord_cons, hb2]
    simp only [Bool.false_eq_true, if_false]

theorem runFiles_closed_form :
    ∀ (fs : List (String × String)) (snap cur ex : List Doc) (log : SyncLog),
      (fs.map (fun q => slugOfFile q.1)).Nodup →
      cur.map (fun d => d.slug) = snap.map (fun d => d.slug) →
      (snap.map (fun d => d.slug)).Nodup →
      (∀ q ∈ fs, slugOfFile q.1 ∉ ex.map (fun d => d.slug)) →
      (∀ q ∈ fs, ∀ d ∈ cur, d.slug = slugOfFile q.1 → d ∈ snap) →
      (runFiles noFail snap (cur ++ ex, log) fs).1 =
        cur.map (mergeRecord fs) ++ ex ++
          createdDocs (snap.map (fun d => d.slug)) fs := by
  intro fs
  induction fs with
  | nil =>
    intro snap cur ex log _ _ _ _ _
    have hm : cur.map (mergeRecord []) = cur := by
      conv_rhs => rw [← List.map_id cur]
      exact List.map_congr_left (fun d _ => mergeRecord_nil d)
    show cur ++ ex =
      cur.map (mergeRecord []) ++ ex ++
        createdDocs (snap.map (fun d => d.slug)) []
    rw [hm, show createdDocs (snap.map (fun d => d.slug)) [] = [] from rfl,
      List.append_nil]
  | cons p fs ih =>
    intro snap cur ex log hK2 hcur hsnd hEx hI3
    rw [List.map_cons, List.nodup_cons] at hK2
    unfold runFiles processFile
    dsimp only
    by_cases hcont :
        ((snap.map (fun d => d.slug)).contains (slugOfFile p.1)) = true
    · have hmemslug : slugOfFile p.1 ∈ snap.map (fun d => d.slug) :=
        List.elem_iff.mp hcont
      obtain ⟨r0, hr0m, hr0s⟩ := List.mem_map.mp hmemslug
      have hfind : snap.find? (fun d => d.slug == slugOfFile p.1) = some r0 := by
        have hf := find?_nodup_self snap hsnd r0 hr0m
        rw [hr0s] at hf
        exact hf
      rw [if_pos hcont, hfind]
      dsimp only
      rw [createdDocs_cons_mem _ p fs hcont]
      by_cases hupd : (r0.content != p.2) = true
      · rw [if_pos hupd]
        rw [show noFail.updateFails (slugOfFile p.1) = false from rfl]
        simp only [Bool.false_eq_true, if_false]
        rw [applyUpdate_append]
        rw [applyUpdate_id_of_not_mem ex _ _ (hEx p (List.mem_cons_self p fs))]
        rw [ih snap (applyUpdate cur (slugOfFile p.1) p.2) ex _ hK2.2
          (by rw [applyUpdate_slugs]; exact hcur) hsnd
          (fun q hq => hEx q (List.mem_cons_of_mem p hq))
          ?_]
        · rw [mergeRecord_map_update p fs cur hK2.1]
        · intro q hq d hd hds
          unfold applyUpdate at hd
          rw [List.mem_map] at hd
          obtain ⟨d0, hd0, hd0e⟩ := hd
          by_cases hb : (d0.slug == slugOfFile p.1) = true
          · rw [if_pos hb] at hd0e
            exfalso
            apply hK2.1
            have hqp : slugOfFile q.1 = slugOfFile p.1 := by
              rw [← hds, ← hd0e]
              exact beq_iff_eq.mp hb
            exact hqp ▸ List.mem_map_of_mem (fun q => slugOfFile q.1) hq
          · rw [if_neg hb] at hd0e
            exact hI3 q (List.mem_cons_of_mem p hq) d (hd0e ▸ hd0) hds
      · rw [if_neg hupd]
        have hcontent : r0.content = p.2 := by
          have := Bool.eq_false_iff.mpr hupd
          simpa using this
        rw [ih snap cur ex log hK2.2 hcur hsnd
          (fun q hq => hEx q (List.mem_cons_of_mem p hq))
          (fun q hq d hd hds => hI3 q (List.mem_cons_of_mem p hq) d hd hds)]
        have hmaps : cur.map (mergeRecord fs) = cur.map (mergeRecord (p :: fs)) := by
          apply List.map_congr_left
          intro d hd
          rw [mergeRecord_cons]
          by_cases hds : d.slug = slugOfFile p.1
          · rw [if_pos (beq_iff_eq.mpr hds.symm)]
            have hdsnap : d ∈ snap := hI3 p (List.mem_cons_self p fs) d hd hds
            have hfd := find?_nodup_self snap hsnd d hdsnap
            rw [hds] at hfd
            rw [hfind] at hfd
            have hrd : r0 = d := Option.some.inj hfd
            have hnone : fs.find? (fun q => slugOfFile q.1 == d.slug) = none := by
              apply List.find?_eq_none.mpr
              intro q hq hbe
              apply hK2.1
              have : slugOfFile q.1 = slugOfFile p.1 := by
                rw [beq_iff_eq.mp hbe, hds]
              exact this ▸ List.mem_map_of_mem (fun q => slugOfFile q.1) hq
            show mergeRecord fs d = Doc.mk d.slug p.2
            unfold mergeRecord
            rw [hnone]
            have : d.content = p.2 := by rw [← hrd, hcontent]
            cases d
            simp at hds hrd ⊢
            simpa using this
          · rw [if_neg (show ¬ (slugOfFile p.1 == d.slug) = true from
              fun hc => hds (beq_iff_eq.mp hc).symm)]
        rw [hmaps]
    · rw [if_neg hcont]
      have hnotslug : slugOfFile p.1 ∉ snap.map (fun d => d.slug) :=
        fun hm => hcont (List.elem_iff.mpr hm)
      have hhass : hasSlug (cur ++ ex) (slugOfFile p.1) = false := by
        unfold hasSlug
        apply Bool.eq_false_iff.mpr
        intro hc
        obtain ⟨d, hd, hbe⟩ := List.any_eq_true.mp hc
        have hds : d.slug = slugOfFile p.1 := beq_iff_eq.mp hbe
        rcases List.mem_append.mp hd with hmem | hmem
        · have h1 : slugOfFile p.1 ∈ cur.map (fun d => d.slug) :=
            hds ▸ List.mem_map_of_mem (fun d => d.slug) hmem
          rw [hcur] at h1
          exact hnotslug h1
        · exact hEx p (List.mem_cons_self p fs)
            (hds ▸ List.mem_map_of_mem (fun d => d.slug) hmem)
      rw [show noFail.createFails (slugOfFile p.1) = false from rfl, hhass]
      simp only [Bool.or_self, Bool.false_eq_true, if_false]
      rw [List.append_assoc]
      rw [ih snap cur (ex ++ [Doc.mk (slugOfFile p.1) p.2]) _ hK2.2 hcur hsnd
        ?_ (fun q hq d hd hds => hI3 q (List.mem_cons_of_mem p hq) d hd hds)]
      · rw [createdDocs_cons_notmem _ p fs (Bool.eq_false_iff.mpr hcont)]
        have hmaps : cur.map (mergeRecord fs) = cur.map (mergeRecord (p :: fs)) := by
          apply List.map_congr_left
          intro d hd
          rw [mergeRecord_cons]
          have hds : d.slug ≠ slugOfFile p.1 := by
            intro hcontra
            apply hnotslug
            rw [← hcur]
            exact hcontra ▸ List.mem_map_of_mem (fun d => d.slug) hd
          rw [if_neg (show ¬ (slugOfFile p.1 == d.slug) = true from
            fun hc => hds (beq_iff_eq.mp hc).symm)]
        rw [hmaps]
        simp [List.append_assoc]
      · intro q hq
        rw [List.map_append]
        intro hmem
        rcases List.mem_append.mp hmem with hm | hm
        · exact hEx q (List.mem_cons_of_mem p hq) hm
        · apply hK2.1
          have : slugOfFile q.1 = slugOfFile p.1 := by
            simpa using hm
          exact this ▸ List.mem_map_of_mem (fun q => slugOfFile q.1) hq

theorem mdx_slugs_nodup (disk : List (String × String))
    (h3 : ((disk.filter (fun p => isMdxName p.1)).map (fun p => p.1)).Nodup)
    (h4 : ∀ p ∈ disk.filter (fun p => isMdxName p.1),
      slugOfFile p.1 ++ mdxExt = p.1) :
    ((disk.filter (fun p => isMdxName p.1)).map
      (fun q => slugOfFile q.1)).Nodup := by
  have hmm : (disk.filter (fun p => isMdxName p.1)).map (fun q => slugOfFile q.1)
      = ((disk.filter (fun p => isMdxName p.1)).map (fun p => p.1)).map
          (fun n => slugOfFile n) := by
    rw [List.map_map]
    rfl
  rw [hmm]
  apply List.Nodup.map_on ?_ h3
  intro x hx y hy hxy
  obtain ⟨px, hpx, hpx1⟩ := List.mem_map.mp hx
  obtain ⟨py, hpy, hpy1⟩ := List.mem_map.mp hy
  have h4x := h4 px hpx
  have h4y := h4 py hpy
  rw [hpx1] at h4x
  rw [hpy1] at h4y
  rw [← h4x, ← h4y, hxy]

theorem mdx_files_inj (disk : List (String × String))
    (h3 : ((disk.filter (fun p => isMdxName p.1)).map (fun p => p.1)).Nodup)
    (h4 : ∀ p ∈ disk.filter (fun p => isMdxName p.1),
      slugOfFile p.1 ++ mdxExt = p.1) :
    ∀ p ∈ disk.filter (fun p => isMdxName p.1),
      ∀ q ∈ disk.filter (fun p => isMdxName p.1),
        slugOfFile p.1 = slugOfFile q.1 → p = q := by
  intro p hp q hq hpq
  exact List.inj_on_of_nodup_map (mdx_slugs_nodup disk h3 h4) hp hq hpq

theorem syncDocs_store_closed (store0 : List Doc)
    (disk : List (String × String))
    (h1 : (store0.map (fun d => d.slug)).Nodup)
    (h2 : store0.length ≤ fetchLimit)
    (h3 : ((disk.filter (fun p => isMdxName p.1)).map (fun p => p.1)).Nodup)
    (h4 : ∀ p ∈ disk.filter (fun p => isMdxName p.1),
      slugOfFile p.1 ++ mdxExt = p.1) :
    (syncDocs store0 disk).store =
      (store0.map (mergeRecord (disk.filter (fun p => isMdxName p.1))) ++
        createdDocs (store0.map (fun d => d.slug))
          (disk.filter (fun p => isMdxName p.1))).filter
        (fun d =>
          ((disk.filter (fun p => isMdxName p.1)).map
            (fun p => p.1)).contains (d.slug ++ mdxExt) ||
          !((store0.map (fun q => q.slug)).contains d.slug)) := by
  have htake : fetchedDocs store0 = store0 := List.take_of_length_le h2
  have hK2 := mdx_slugs_nodup disk h3 h4
  unfold syncDocs syncDocsE
  dsimp only
  rw [htake]
  have hrf := runFiles_closed_form (disk.filter (fun p => isMdxName p.1))
    store0 store0 [] emptyLog hK2 rfl h1
    (by intro q _ hmem; exact absurd hmem (List.not_mem_nil _))
    (by intro q _ d hd _; exact hd)
  simp only [List.append_nil] at hrf
  rcases hrfeq : runFiles noFail store0 (store0, emptyLog)
    (disk.filter (fun p => isMdxName p.1)) with ⟨st1, log1⟩
  rw [hrfeq] at hrf
  dsimp only at hrf
  rw [runDeletes_store_closed]
  rw [hrf]

/-- C1.  Corrected.  Provided the store is within the 1000-record fetch
window, store slugs are unique (the collection invariant), file names
in the docs directory are distinct, and every mdx file name is its
derived slug followed by the extension (the extension text occurs only
as the suffix — the counterexample shows the pass diverging on a name
with an interior occurrence), one pass converges: the slugs in the
store afterwards are exactly the slugs derived from the mdx files, and
every record whose slug matches a file carries exactly that file's raw
text; the pass completes (no uncaught error), and on the concrete
example store {a:X, b:Y} against disk {a.mdx:X, c.mdx:Z} the pass
deletes b, creates c with content Z, leaves a untouched and performs
zero updates. -/
theorem c1_reconciliation_convergence (store0 : List Doc)
    (disk : List (String × String))
    (h1 : (store0.map (fun d => d.slug)).Nodup)
    (h2 : store0.length ≤ fetchLimit)
    (h3 : ((disk.filter (fun p => isMdxName p.1)).map (fun p => p.1)).Nodup)
    (h4 : ∀ p ∈ disk.filter (fun p => isMdxName p.1),
      slugOfFile p.1 ++ mdxExt = p.1) :
    (∀ s : String,
      (∃ d ∈ (syncDocs store0 disk).store, d.slug = s) ↔
        (∃ p ∈ disk.filter (fun p => isMdxName p.1), slugOfFile p.1 = s)) ∧
    (∀ d ∈ (syncDocs store0 disk).store,
      ∀ p ∈ disk.filter (fun p => isMdxName p.1),
        slugOfFile p.1 = d.slug → d.content = p.2) ∧
    (syncDocs store0 disk).err = false ∧
    syncDocs [Doc.mk "a" "X", Doc.mk "b" "Y"] [("a.mdx", "X"), ("c.mdx", "Z")] =
      ⟨[Doc.mk "a" "X", Doc.mk "c" "Z"], ⟨["c"], [], ["b"], [], []⟩, false⟩ := by
  have hstore := syncDocs_store_closed store0 disk h1 h2 h3 h4
  have hinj := mdx_files_inj disk h3 h4
  refine ⟨?_, ?_, ?_, by decide⟩
  · intro s
    constructor
    · rintro ⟨d, hd, rfl⟩
      rw [hstore] at hd
      obtain ⟨hdbase, hdpred⟩ := List.mem_filter.mp hd
      rcases List.mem_append.mp hdbase with hmem | hmem
      · obtain ⟨r, hr, hre⟩ := List.mem_map.mp hmem
        have hds : d.slug = r.slug := by
          rw [← hre]
          exact mergeRecord_slug _ r
        have hc2 : ((store0.map (fun q => q.slug)).contains d.slug) = true := by
          apply List.elem_iff.mpr
          rw [hds]
          exact List.mem_map_of_mem (fun q => q.slug) hr
        by_cases hnm : ((disk.filter (fun p => isMdxName p.1)).map
            (fun p => p.1)).contains (d.slug ++ mdxExt) = true
        · have hmemn := List.elem_iff.mp hnm
          obtain ⟨p, hp, hp1⟩ := List.mem_map.mp hmemn
          refine ⟨p, hp, ?_⟩
          have h4p := h4 p hp
          nth_rewrite 2 [hp1] at h4p
          exact string_append_right_cancel _ _ _ h4p
        · exfalso
          rw [Bool.eq_false_iff.mpr hnm, hc2] at hdpred
          simp at hdpred
      · obtain ⟨q, hqf, hqe⟩ := List.mem_map.mp hmem
        have hqfiles := List.mem_of_mem_filter hqf
        exact ⟨q, hqfiles, congrArg Doc.slug hqe⟩
    · rintro ⟨p, hp, rfl⟩
      by_cases hmem : ((store0.map (fun d => d.slug)).contains (slugOfFile p.1)) = true
      · obtain ⟨r, hr, hrs⟩ := List.mem_map.mp (List.elem_iff.mp hmem)
        refine ⟨mergeRecord (disk.filter (fun p => isMdxName p.1)) r, ?_, ?_⟩
        · rw [hstore]
          apply List.mem_filter.mpr
          refine ⟨List.mem_append_left _
            (List.mem_map_of_mem (mergeRecord _) hr), ?_⟩
          have hcn : ((disk.filter (fun p => isMdxName p.1)).map
              (fun p => p.1)).contains
              ((mergeRecord (disk.filter (fun p => isMdxName p.1)) r).slug ++
                mdxExt) = true := by
            apply List.elem_iff.mpr
            rw [mergeRecord_slug, hrs, h4 p hp]
            exact List.mem_map_of_mem (fun p => p.1) hp
          rw [hcn]
          rfl
        · rw [mergeRecord_slug, hrs]
      · refine ⟨Doc.mk (slugOfFile p.1) p.2, ?_, rfl⟩
        rw [hstore]
        apply List.mem_filter.mpr
        constructor
        · apply List.mem_append_right
          unfold createdDocs
          apply List.mem_map.mpr
          refine ⟨p, ?_, rfl⟩
          apply List.mem_filter.mpr
          refine ⟨hp, ?_⟩
          rw [Bool.eq_false_iff.mpr hmem]
          rfl
        · dsimp only
          rw [Bool.eq_false_iff.mpr hmem]
          simp
  · intro d hd p hp hslug
    rw [hstore] at hd
    obtain ⟨hdbase, _⟩ := List.mem_filter.mp hd
    rcases List.mem_append.mp hdbase with hmem | hmem
    · obtain ⟨r, hr, hre⟩ := List.mem_map.mp hmem
      have hds : d.slug = r.slug := by
        rw [← hre]
        exact mergeRecord_slug _ r
      cases hf : (disk.filter (fun p => isMdxName p.1)).find?
          (fun q => slugOfFile q.1 == r.slug) with
      | none =>
        exfalso
        apply List.find?_eq_none.mp hf p hp
        rw [beq_iff_eq, hslug, hds]
      | some q0 =>
        have hq0mem := List.mem_of_find?_eq_some hf
        have hq0pred := List.find?_some hf
        have hq0slug : slugOfFile q0.1 = r.slug := beq_iff_eq.mp hq0pred
        have hpq : p = q0 := hinj p hp q0 hq0mem (by rw [hslug, hds, hq0slug])
        have hde : d = Doc.mk r.slug q0.2 := by
          rw [← hre]
          unfold mergeRecord
          rw [hf]
        rw [hde, hpq]
    · obtain ⟨q, hqf, hqe⟩ := List.mem_map.mp hmem
      have hqfiles := List.mem_of_mem_filter hqf
      have hds : d.slug = slugOfFile q.1 := by rw [← hqe]
      have hpq : p = q := hinj p hp q hqfiles (by rw [hslug, hds])
      rw [← hqe, hpq]
  · unfold syncDocs syncDocsE
    dsimp only
    exact runDeletes_err_false noFail _ (fun _ => rfl) _ _

/-- Witness for C1 at the concrete example of the claim, discharging
all four hypotheses there. -/
theorem c1_reconciliation_convergence_witness :
    (∀ d ∈ (syncDocs [Doc.mk "a" "X", Doc.mk "b" "Y"]
        [("a.mdx", "X"), ("c.mdx", "Z")]).store,
      ∀ p ∈ [("a.mdx", "X"), ("c.mdx", "Z")].filter (fun p => isMdxName p.1),
        slugOfFile p.1 = d.slug → d.content = p.2) ∧
    syncDocs [Doc.mk "a" "X", Doc.mk "b" "Y"] [("a.mdx", "X"), ("c.mdx", "Z")] =
      ⟨[Doc.mk "a" "X", Doc.mk "c" "Z"], ⟨["c"], [], ["b"], [], []⟩, false⟩ :=
  ⟨(c1_reconciliation_convergence [Doc.mk "a" "X", Doc.mk "b" "Y"]
      [("a.mdx", "X"), ("c.mdx", "Z")] (by decide) (by decide) (by decide)
      (by decide)).2.1,
   (c1_reconciliation_convergence [Doc.mk "a" "X", Doc.mk "b" "Y"]
      [("a.mdx", "X"), ("c.mdx", "Z")] (by decide) (by decide) (by decide)
      (by decide)).2.2.2⟩

/-- Counterexample for C1: the slug is derived by replacing the first
occurrence of the extension text, not by stripping the suffix.  For a
store holding exactly the record ab.mdx (content Z) and a disk holding
exactly the file a.mdxb.mdx (content Z), the derived slug of the file
is ab.mdx, so the create/update loop changes nothing, and the delete
loop then deletes the record (ab.mdx.mdx is not a file name): the pass
ends with an empty store while the disk still holds one mdx file, so
the store slugs do not equal the file-derived slugs under any
interpretation of slug derivation. -/
theorem c1_first_occurrence_slug_divergence :
    slugOfFile "a.mdxb.mdx" = "ab.mdx" ∧
      (syncDocs [Doc.mk "ab.mdx" "Z"] [("a.mdxb.mdx", "Z")]).store = [] ∧
      [("a.mdxb.mdx", "Z")].filter (fun p => isMdxName p.1) =
        [("a.mdxb.mdx", "Z")] := by
  decide

end DocSync
